import Mathlib

/-!
# Verification of dns-ha against its specification

Shallow embedding of the dns-ha repository (Go) in Lean 4.

The embedding covers:
* the per-record hysteresis state machine (`internal/status`);
* DNS record construction and validation (`internal/domain.go`);
* the healthy-record selector `filterHealthyIps` (`internal/domain.go`);
* the unbound zone-file reconciliation `Unbound.UpdateIps` (unbound store);
* the TCP health checker (`internal/healthcheck/tcp.go`).

Go strings are modelled as `List Char` where line/byte level reasoning is
needed, Go `int` as `Int`, Go `uint8`/`uint16` casts as `% 256` / `% 65536`.
Stateful Go methods that mutate the receiver and/or call `SetState` on the
enclosing record are modelled as pure step functions returning the new state.
-/

namespace DnsHa

/-! ## Status state machine (`internal/status`)

Source: `internal/status/healthy.go`, `internal/status/unhealthy.go`,
`internal/status/initial.go` (the file defining `Initial` / `NewUnknownState`).
-/

/-- `conf.StatusConfig`: the four streak thresholds. Go `int` is modelled
as `Int`. -/
structure StatusConfig where
  HealthyStreak : Int
  UnhealthyStreak : Int
  InitialHealthyStreak : Int
  InitialUnhealthyStreak : Int
deriving DecidableEq, Repr

/-- `status.InitialStateName` -/
def InitialStateName : String := "initial"

/-- `status.HealthyStateName` -/
def HealthyStateName : String := "healthy"

/-- `status.UnhealthyStateName` -/
def UnhealthyStateName : String := "unhealthy"

/-- The three `status.State` implementations, as a tagged variant.

* `initial currentStreak lastState cfgHealthyStreak cfgUnhealthyStreak`
  mirrors `status.Initial` (fields in source order);
* `healthy currentStreak cfgStreakUntilHealthy cfgStreakUntilUnhealthy`
  mirrors `status.Healthy`;
* `unhealthy currentStreak cfgStreakUntilHealthy cfgStreakUntilUnhealthy`
  mirrors `status.Unhealthy`.
-/
inductive State where
  | initial (currentStreak : Int) (lastState : String)
      (cfgHealthyStreak cfgUnhealthyStreak : Int)
  | healthy (currentStreak : Int)
      (cfgStreakUntilHealthy cfgStreakUntilUnhealthy : Int)
  | unhealthy (currentStreak : Int)
      (cfgStreakUntilHealthy cfgStreakUntilUnhealthy : Int)
deriving DecidableEq, Repr

/-- `status.newHealthy(healthyStreak, unhealthyStreak)`:
`currentStreak` starts at `healthyStreak`. -/
def newHealthy (healthyStreak unhealthyStreak : Int) : State :=
  .healthy healthyStreak healthyStreak unhealthyStreak

/-- `status.newUnhealthy(healthyStreak, unhealthyStreak)`:
`currentStreak` starts at `unhealthyStreak`. -/
def newUnhealthy (healthyStreak unhealthyStreak : Int) : State :=
  .unhealthy unhealthyStreak healthyStreak unhealthyStreak

/-- `status.NewUnknownState(opts)`: the freshly constructed `Initial` state.
`lastState` is the zero value `""`; `currentStreak` starts at
`opts.InitialHealthyStreak`. -/
def NewUnknownState (opts : StatusConfig) : State :=
  .initial opts.InitialHealthyStreak "" opts.HealthyStreak opts.UnhealthyStreak

/-- `State.Name()` of each implementation. -/
def State.Name : State → String
  | .initial .. => InitialStateName
  | .healthy .. => HealthyStateName
  | .unhealthy .. => UnhealthyStateName

/-- `State.Streak()` of each implementation. -/
def State.Streak : State → Int
  | .initial s .. => s
  | .healthy s .. => s
  | .unhealthy s .. => s

/-- A probe outcome fed to the state machine: `H` = probe healthy
(`State.Healthy` is invoked), `U` = probe unhealthy (`State.Unhealthy`),
`E` = probe error (`State.Error`), as dispatched by
`ManagedDnsRecord.Eval` in `internal/domain.go`. -/
inductive ProbeInput where
  | H
  | U
  | E
deriving DecidableEq, Repr

/-- One input processed by the current state. Each arm is the body of the
corresponding Go method; `state.SetState(...)` becomes returning the newly
constructed state, and falling off the end of the method returns the mutated
receiver.

* `Initial.Healthy` / `Initial.Unhealthy` / `Initial.Error`
  (`Initial` source file, lines 33-58);
* `Healthy.Healthy` / `Healthy.Unhealthy` / `Healthy.Error`
  (`internal/status/healthy.go`, lines 28-45);
* `Unhealthy.Healthy` / `Unhealthy.Unhealthy` / `Unhealthy.Error`
  (`internal/status/unhealthy.go`, lines 28-43).
-/
def State.step : State → ProbeInput → State
  | .initial currentStreak lastState hh uu, .H =>
    let p : Int × String :=
      if lastState == UnhealthyStateName then (hh, HealthyStateName)
      else (currentStreak, lastState)
    let s := p.1 - 1
    if s ≤ 0 then newHealthy hh uu else .initial s p.2 hh uu
  | .initial currentStreak lastState hh uu, .U =>
    let p : Int × String :=
      if lastState == HealthyStateName then (uu, UnhealthyStateName)
      else (currentStreak, lastState)
    let s := p.1 - 1
    if s ≤ 0 then newUnhealthy hh uu else .initial s p.2 hh uu
  | .initial currentStreak lastState hh uu, .E =>
    .initial currentStreak lastState hh uu
  | .healthy _ ch cu, .H => .healthy cu ch cu
  | .healthy currentStreak ch cu, .U =>
    let s := currentStreak - 1
    if s ≤ 0 then newUnhealthy ch cu else .healthy s ch cu
  | .healthy currentStreak ch cu, .E =>
    let s := currentStreak - 1
    if s ≤ 0 then newUnhealthy ch cu else .healthy s ch cu
  | .unhealthy currentStreak ch cu, .H =>
    let s := currentStreak - 1
    if s ≤ 0 then newHealthy ch cu else .unhealthy s ch cu
  | .unhealthy _ ch cu, .U => .unhealthy cu ch cu
  | .unhealthy _ ch cu, .E => .unhealthy cu ch cu

/-- A sequence of probe outcomes processed in order. -/
def State.run (s : State) (inputs : List ProbeInput) : State :=
  inputs.foldl State.step s

theorem State.run_nil (s : State) : State.run s [] = s := rfl

theorem State.run_cons (s : State) (i : ProbeInput) (l : List ProbeInput) :
    State.run s (i :: l) = State.run (s.step i) l := rfl

theorem State.run_append (s : State) (l₁ l₂ : List ProbeInput) :
    State.run s (l₁ ++ l₂) = State.run (State.run s l₁) l₂ :=
  List.foldl_append _ _ _ _

theorem step_unhealthy_H (c hh uu : Int) :
    State.step (.unhealthy c hh uu) .H =
      if c - 1 ≤ 0 then newHealthy hh uu else .unhealthy (c - 1) hh uu := rfl

theorem step_healthy_U (c hh uu : Int) :
    State.step (.healthy c hh uu) .U =
      if c - 1 ≤ 0 then newUnhealthy hh uu else .healthy (c - 1) hh uu := rfl

theorem step_initial_U_fresh (c hh uu : Int) :
    State.step (.initial c "" hh uu) .U =
      if c - 1 ≤ 0 then newUnhealthy hh uu else .initial (c - 1) "" hh uu := rfl

/-- `k` healthy probes, `k` below the current streak, leave `Unhealthy`
in place and decrement the streak `k` times. -/
theorem run_unhealthy_replicate_H (hh uu : Int) (k : Nat) (c : Int)
    (h : (k : Int) < c) :
    State.run (.unhealthy c hh uu) (List.replicate k .H) =
      .unhealthy (c - k) hh uu := by
  induction k generalizing c with
  | zero => simp [State.run]
  | succ n ih =>
    rw [List.replicate_succ, State.run_cons, step_unhealthy_H]
    have hc : ¬ (c - 1 ≤ 0) := by push_cast at h; omega
    rw [if_neg hc, ih (c - 1) (by push_cast at h ⊢; omega)]
    congr 1
    push_cast
    ring

/-- `k` unhealthy probes, `k` below the current streak, leave `Healthy`
in place and decrement the streak `k` times. -/
theorem run_healthy_replicate_U (hh uu : Int) (k : Nat) (c : Int)
    (h : (k : Int) < c) :
    State.run (.healthy c hh uu) (List.replicate k .U) =
      .healthy (c - k) hh uu := by
  induction k generalizing c with
  | zero => simp [State.run]
  | succ n ih =>
    rw [List.replicate_succ, State.run_cons, step_healthy_U]
    have hc : ¬ (c - 1 ≤ 0) := by push_cast at h; omega
    rw [if_neg hc, ih (c - 1) (by push_cast at h ⊢; omega)]
    congr 1
    push_cast
    ring

/-- `k` unhealthy probes, `k` below the current streak, leave a fresh
`Initial` state (whose `lastState` is still the zero value `""`) in place
and decrement the streak `k` times. -/
theorem run_initial_replicate_U (hh uu : Int) (k : Nat) (c : Int)
    (h : (k : Int) < c) :
    State.run (.initial c "" hh uu) (List.replicate k .U) =
      .initial (c - k) "" hh uu := by
  induction k generalizing c with
  | zero => simp [State.run]
  | succ n ih =>
    rw [List.replicate_succ, State.run_cons, step_initial_U_fresh]
    have hc : ¬ (c - 1 ≤ 0) := by push_cast at h; omega
    rw [if_neg hc, ih (c - 1) (by push_cast at h ⊢; omega)]
    congr 1
    push_cast
    ring

/-- C1, counterexample. With policy `healthy_streak = 3`,
`unhealthy_streak = 1`: in the unhealthy state immediately after a reset
(a `U` input while unhealthy), a single `H` input already makes the state
healthy, although the claim requires `healthy_streak = 3` consecutive `H`
inputs. The streak counter that `Unhealthy` counts down towards `healthy`
is initialised from `unhealthy_streak`, not `healthy_streak`. -/
theorem c1_counterexample :
    (State.run ((newUnhealthy 3 1).step .U) [.H]).Name = HealthyStateName ∧
      (3 : Int) ≠ 1 := by
  constructor
  · rfl
  · decide

/-- C1, amended. For every policy whose `unhealthy_streak` is the positive
number `n`: a single `U` or `E` input while unhealthy resets the counter to
`n` (its full entry value `unhealthy_streak`); from that reset unhealthy
state exactly `n = unhealthy_streak` (not `healthy_streak`) consecutive `H`
inputs are required to become healthy. Symmetrically a single `H` input
while healthy sets the counter to `n = unhealthy_streak` (which differs
from the healthy state's entry value `healthy_streak` whenever the two
thresholds differ), and from that reset healthy state exactly `n`
consecutive `U` inputs are required to become unhealthy. -/
theorem c1_amended (hh : Int) (n : Nat) (hn : 0 < n) (c c' : Int) :
    (State.step (.unhealthy c hh n) .U = .unhealthy n hh n) ∧
    (State.step (.unhealthy c hh n) .E = .unhealthy n hh n) ∧
    (∀ k : Nat, k < n →
      (State.run (.unhealthy n hh n) (List.replicate k .H)).Name =
        UnhealthyStateName) ∧
    ((State.run (.unhealthy n hh n) (List.replicate n .H)).Name =
        HealthyStateName) ∧
    (State.step (.healthy c' hh n) .H = .healthy n hh n) ∧
    (∀ k : Nat, k < n →
      (State.run (.healthy n hh n) (List.replicate k .U)).Name =
        HealthyStateName) ∧
    ((State.run (.healthy n hh n) (List.replicate n .U)).Name =
        UnhealthyStateName) := by
  refine ⟨rfl, rfl, ?_, ?_, rfl, ?_, ?_⟩
  · intro k hk
    rw [run_unhealthy_replicate_H hh n k n (by exact_mod_cast hk)]
    rfl
  · obtain ⟨m, rfl⟩ : ∃ m, n = m + 1 := ⟨n - 1, by omega⟩
    rw [List.replicate_succ' m ProbeInput.H, State.run_append,
      run_unhealthy_replicate_H hh _ m _ (by push_cast; omega)]
    have h1 : ((m : Int) + 1) - m = 1 := by ring
    push_cast
    rw [h1]
    rfl
  · intro k hk
    rw [run_healthy_replicate_U hh n k n (by exact_mod_cast hk)]
    rfl
  · obtain ⟨m, rfl⟩ : ∃ m, n = m + 1 := ⟨n - 1, by omega⟩
    rw [List.replicate_succ' m ProbeInput.U, State.run_append,
      run_healthy_replicate_U hh _ m _ (by push_cast; omega)]
    have h1 : ((m : Int) + 1) - m = 1 := by ring
    push_cast
    rw [h1]
    rfl

/-- C1, amended, witness at `healthy_streak = 5`, `unhealthy_streak = 2`. -/
theorem c1_amended_witness :
    (State.step (.unhealthy 7 5 (2 : Nat)) .U = .unhealthy 2 5 2) ∧
      (State.run (.unhealthy (2 : Nat) 5 (2 : Nat))
        (List.replicate 1 .H)).Name = UnhealthyStateName ∧
      (State.run (.unhealthy (2 : Nat) 5 (2 : Nat))
        (List.replicate 2 .H)).Name = HealthyStateName := by
  have h := c1_amended 5 2 (by decide) 7 7
  exact ⟨h.1, h.2.2.1 1 (by decide), h.2.2.2.1⟩

/-- C5. The code contradicts the claim: with policy
`(healthy=5, unhealthy=5, initial_healthy=2, initial_unhealthy=1)` and
input sequence `U, H` from the fresh initial state, the claim says the `H`
input (whose previous seen input was `U`) first resets the streak to
`initial_healthy_streak = 2` and the state stays `initial` with streak 1;
the code never updates `lastState` from its zero value `""` (it is only
assigned inside branches that require it to already be non-empty), so no
reset happens, the streak reaches 0 and the state becomes `healthy`. -/
theorem c5_failing_run :
    (State.run (NewUnknownState ⟨5, 5, 2, 1⟩) [.U, .H]).Name =
        HealthyStateName ∧
      (State.run (NewUnknownState ⟨5, 5, 2, 1⟩) [.U, .H]).Name ≠
        InitialStateName := by
  constructor
  · rfl
  · decide

/-- C6, counterexample. With policy
`(healthy=5, unhealthy=5, initial_healthy=2, initial_unhealthy=1)`,
after `initial_unhealthy_streak = 1` failing probes the claim says the
record is `unhealthy`; the code's fresh initial state starts its counter at
`initial_healthy_streak = 2`, so after one `U` input it is still
`initial`. -/
theorem c6_counterexample :
    (StatusConfig.InitialUnhealthyStreak ⟨5, 5, 2, 1⟩ = 1) ∧
      (State.run (NewUnknownState ⟨5, 5, 2, 1⟩)
        (List.replicate 1 .U)).Name = InitialStateName := by
  constructor
  · rfl
  · rfl

/-- C6, amended. From the freshly constructed initial state, under only `U`
inputs, the record becomes `unhealthy` after exactly
`initial_healthy_streak` inputs (the fresh state's counter starts at
`initial_healthy_streak`, and with no `H` ever seen no reset applies). -/
theorem c6_amended (hh uu iu : Int) (n : Nat) (hn : 0 < n) :
    (∀ k : Nat, k < n →
      (State.run (NewUnknownState ⟨hh, uu, n, iu⟩)
        (List.replicate k .U)).Name = InitialStateName) ∧
    (State.run (NewUnknownState ⟨hh, uu, n, iu⟩)
      (List.replicate n .U)).Name = UnhealthyStateName := by
  constructor
  · intro k hk
    rw [show NewUnknownState ⟨hh, uu, n, iu⟩ = .initial n "" hh uu from rfl,
      run_initial_replicate_U hh uu k n (by exact_mod_cast hk)]
    rfl
  · obtain ⟨m, rfl⟩ : ∃ m, n = m + 1 := ⟨n - 1, by omega⟩
    rw [show NewUnknownState ⟨hh, uu, (m + 1 : Nat), iu⟩ =
        .initial (m + 1 : Nat) "" hh uu from rfl,
      List.replicate_succ' m ProbeInput.U, State.run_append,
      run_initial_replicate_U hh uu m _ (by push_cast; omega)]
    have h1 : (((m : Nat) + 1 : Nat) : Int) - m = 1 := by push_cast; ring
    rw [h1, State.run_cons, step_initial_U_fresh]
    rfl

/-- C6, amended, witness at `initial_healthy_streak = 2`. -/
theorem c6_amended_witness :
    (State.run (NewUnknownState ⟨5, 5, (2 : Nat), 1⟩)
        (List.replicate 1 .U)).Name = InitialStateName ∧
      (State.run (NewUnknownState ⟨5, 5, (2 : Nat), 1⟩)
        (List.replicate 2 .U)).Name = UnhealthyStateName := by
  have h := c6_amended 5 5 1 2 (by decide)
  exact ⟨h.1 1 (by decide), h.2⟩

/-! ## DNS records (`internal/domain.go`) -/

/-- The result of Go's `net.ParseIP` (standard library, external to this
repository) on a textual address: `v4` for an IPv4 dotted-quad literal
(whose `To4()` is non-nil; an IPv4-mapped IPv6 literal such as
`::ffff:1.2.3.4` also lands here), `v6` for any other IPv6 literal (whose
`To4()` is nil). An unparseable string corresponds to `none` at use sites. -/
inductive ParsedIP where
  | v4 (a b c d : Nat)
  | v6 (groups : List Nat)
deriving DecidableEq, Repr

/-- Whether `parsed.To4() == nil` holds for the modelled `net.IP`. -/
def ParsedIP.to4IsNil : ParsedIP → Bool
  | .v4 .. => false
  | .v6 _ => true

/-- `conf.RecordConfig`, restricted to the fields `NewDnsRecord` reads.
`IP` carries the result of `net.ParseIP(conf.IP)` directly (`none` for a
string that does not parse as an IP address). -/
structure RecordConfig where
  IP : Option ParsedIP
  RecordType : String
  Prio : Nat
  Ttl : Nat
deriving DecidableEq, Repr

/-- `internal.DnsRecord`. `Priority` is `uint8`, `Ttl` is `uint16`. -/
structure DnsRecord where
  Priority : Nat
  DnsType : String
  Ip : ParsedIP
  Ttl : Nat
deriving DecidableEq, Repr

/-- `internal.NewDnsRecord` (`internal/domain.go`, lines 36-53): parse the
address; reject when `parsed.To4() == nil && conf.RecordType != "AAAA"`;
otherwise build the record with `uint8`/`uint16` truncating casts. -/
def NewDnsRecord (conf : RecordConfig) : Except String DnsRecord :=
  match conf.IP with
  | none => .error "could not parse as ip address"
  | some parsed =>
    if parsed.to4IsNil && !(conf.RecordType == "AAAA") then
      .error "refusing to use IPv4 address with AAAA record"
    else
      .ok ⟨conf.Prio % 256, conf.RecordType, parsed, conf.Ttl % 65536⟩

/-- C3. The code contradicts the claim (and its own error message): a
configuration pairing the IPv4 literal `192.168.1.5` with record type
`AAAA` is accepted, because the check
`parsed.To4() == nil && conf.RecordType != "AAAA"` only fires for IPv6
addresses. (An IPv6 literal with type `A` is rejected, and matching pairs
are accepted, as the claim says; the failing direction is IPv4 + `AAAA`.) -/
theorem c3_failing_input :
    NewDnsRecord ⟨some (.v4 192 168 1 5), "AAAA", 200, 30⟩ =
        .ok ⟨200, "AAAA", .v4 192 168 1 5, 30⟩ ∧
      (NewDnsRecord ⟨some (.v6 [0, 0, 0, 0, 0, 0, 0, 1]), "A", 200, 30⟩ =
        .error "refusing to use IPv4 address with AAAA record") ∧
      (NewDnsRecord ⟨some (.v4 192 168 1 5), "A", 200, 30⟩ =
        .ok ⟨200, "A", .v4 192 168 1 5, 30⟩) ∧
      (NewDnsRecord ⟨some (.v6 [0, 0, 0, 0, 0, 0, 0, 1]), "AAAA", 200, 30⟩ =
        .ok ⟨200, "AAAA", .v6 [0, 0, 0, 0, 0, 0, 0, 1], 30⟩) := by
  refine ⟨rfl, ?_, rfl, rfl⟩
  rfl

/-! ## Managed records and the selector (`internal/domain.go`) -/

/-- `internal.ManagedDnsRecord`, restricted to what the selector and the
zone store read: the embedded `DnsRecord` fields (`Ip` as its textual form
`record.Ip.String()`, since both consumers only use the string form) and
the current state's name `GetState().Name()` as `statusName`. -/
structure ManagedDnsRecord where
  Priority : Nat
  DnsType : String
  Ip : String
  Ttl : Nat
  statusName : String
deriving DecidableEq, Repr

/-- `internal.PriorityComparator` (`internal/domain.go`, lines 20-22):
`cmp.Compare(b.Priority, a.Priority)`. -/
def PriorityComparator (a b : ManagedDnsRecord) : Ordering :=
  compare b.Priority a.Priority

/-- The order `slices.SortFunc` establishes: `a` may precede `b` when the
comparator does not order `a` strictly after `b`. -/
def recLE (a b : ManagedDnsRecord) : Prop :=
  PriorityComparator a b ≠ Ordering.gt

instance : DecidableRel recLE := fun a b =>
  inferInstanceAs (Decidable (PriorityComparator a b ≠ Ordering.gt))

theorem recLE_iff (a b : ManagedDnsRecord) :
    recLE a b ↔ b.Priority ≤ a.Priority := by
  unfold recLE PriorityComparator
  rw [Ne, Nat.compare_eq_gt]
  omega

instance : IsTotal ManagedDnsRecord recLE :=
  ⟨fun a b => by rw [recLE_iff, recLE_iff]; omega⟩

instance : IsTrans ManagedDnsRecord recLE :=
  ⟨fun a b c h1 h2 => by
    rw [recLE_iff] at h1 h2 ⊢
    omega⟩

/-- The key sequence of a Go map built by inserting the elements of `l` in
order: first occurrences, in order of first insertion. (Go map iteration
order is unspecified; every claim proved below is insensitive to the order
chosen, and this fixed order is one admissible schedule.) -/
def goMapKeys {α : Type} [DecidableEq α] (l : List α) : List α :=
  l.foldl (fun acc k => if k ∈ acc then acc else acc ++ [k]) []

theorem goMapKeys_loop_mem {α : Type} [DecidableEq α] (l acc : List α)
    (x : α) :
    (x ∈ l.foldl (fun acc k => if k ∈ acc then acc else acc ++ [k]) acc) ↔
      x ∈ acc ∨ x ∈ l := by
  induction l generalizing acc with
  | nil => simp
  | cons k rest ih =>
    rw [List.foldl_cons, ih]
    by_cases hk : k ∈ acc
    · simp only [if_pos hk, List.mem_cons]
      constructor
      · rintro (h | h)
        · exact .inl h
        · exact .inr (.inr h)
      · rintro (h | rfl | h)
        · exact .inl h
        · exact .inl hk
        · exact .inr h
    · simp only [if_neg hk, List.mem_append, List.mem_singleton,
        List.mem_cons]
      tauto

theorem goMapKeys_mem {α : Type} [DecidableEq α] (l : List α) (x : α) :
    x ∈ goMapKeys l ↔ x ∈ l := by
  unfold goMapKeys
  rw [goMapKeys_loop_mem]
  simp

theorem goMapKeys_loop_nodup {α : Type} [DecidableEq α] (l acc : List α)
    (h : acc.Nodup) :
    (l.foldl (fun acc k => if k ∈ acc then acc else acc ++ [k]) acc).Nodup := by
  induction l generalizing acc with
  | nil => exact h
  | cons k rest ih =>
    rw [List.foldl_cons]
    by_cases hk : k ∈ acc
    · rw [if_pos hk]
      exact ih acc h
    · rw [if_neg hk]
      refine ih _ ?_
      simp [List.nodup_append, h, hk]

theorem goMapKeys_nodup {α : Type} [DecidableEq α] (l : List α) :
    (goMapKeys l).Nodup :=
  goMapKeys_loop_nodup l [] List.nodup_nil

theorem goMapKeys_eq_nil {α : Type} [DecidableEq α] (l : List α) :
    goMapKeys l = [] ↔ l = [] := by
  constructor
  · intro h
    rcases l with _ | ⟨k, rest⟩
    · rfl
    · exfalso
      have : k ∈ goMapKeys (k :: rest) := (goMapKeys_mem _ _).mpr (by simp)
      rw [h] at this
      exact absurd this (List.not_mem_nil k)
  · rintro rfl
    rfl

/-- `internal.filterHealthyIps` (`internal/domain.go`, lines 230-258):
bucket the records whose state name is `healthy` by `DnsType` (a Go map;
modelled with the deterministic key order `goMapKeys`), return nil when the
map is empty, otherwise sort each bucket with `PriorityComparator` and emit
its first element. The metrics side effect (`updateMetrics`) is telemetry
only and is not modelled. -/
def filterHealthyIps (hostname : String) (ips : List ManagedDnsRecord) :
    List ManagedDnsRecord :=
  let healthy := ips.filter (fun r => r.statusName == HealthyStateName)
  let keys := goMapKeys (healthy.map (·.DnsType))
  if keys.isEmpty then []
  else
    (keys.map (fun t =>
      match List.insertionSort recLE
          (healthy.filter (fun r => r.DnsType == t)) with
      | [] => ([] : List ManagedDnsRecord)
      | x :: _ => [x])).flatten

theorem sum_map_indicator_nodup (l : List String) (h : l.Nodup) (t : String) :
    (l.map (fun x => if x = t then 1 else 0)).sum =
      if t ∈ l then 1 else 0 := by
  induction l with
  | nil => simp
  | cons a rest ih =>
    rw [List.nodup_cons] at h
    rw [List.map_cons, List.sum_cons, ih h.2]
    by_cases hat : a = t
    · subst hat
      simp [h.1]
    · simp only [if_neg hat, List.mem_cons]
      by_cases ht : t ∈ rest
      · simp [ht]
      · have hta : ¬ (t = a) := fun hta => hat hta.symm
        simp [ht, hta]

theorem countP_flatten_eq_sum {α : Type} (p : α → Bool)
    (L : List (List α)) :
    (L.flatten).countP p = (L.map (List.countP p)).sum := by
  induction L with
  | nil => simp
  | cons a rest ih => simp [List.countP_append, ih]

/-- The sorted bucket of a non-empty family: its head is a healthy record
of that family carrying the maximal priority of the bucket. -/
theorem bucket_sort_head (healthy : List ManagedDnsRecord) (t : String)
    (hne : ∃ r ∈ healthy, r.DnsType = t) :
    ∃ x tail,
      List.insertionSort recLE
          (healthy.filter (fun r => r.DnsType == t)) = x :: tail ∧
        x ∈ healthy ∧ x.DnsType = t ∧
        ∀ s ∈ healthy, s.DnsType = t → s.Priority ≤ x.Priority := by
  obtain ⟨r, hr, hrt⟩ := hne
  have hperm := List.perm_insertionSort recLE
    (healthy.filter (fun r => r.DnsType == t))
  have hrb : r ∈ healthy.filter (fun r => r.DnsType == t) := by
    rw [List.mem_filter]
    exact ⟨hr, by simp [hrt]⟩
  have hsortne :
      List.insertionSort recLE (healthy.filter (fun r => r.DnsType == t)) ≠
        [] := by
    intro hnil
    rw [hnil] at hperm
    rw [hperm.symm.eq_nil] at hrb
    exact absurd hrb (List.not_mem_nil r)
  rcases hsort : List.insertionSort recLE
      (healthy.filter (fun r => r.DnsType == t)) with _ | ⟨x, tail⟩
  · exact absurd hsort hsortne
  refine ⟨x, tail, rfl, ?_, ?_, ?_⟩
  · have hx : x ∈ healthy.filter (fun r => r.DnsType == t) := by
      rw [← hperm.mem_iff, hsort]
      simp
    exact (List.mem_filter.mp hx).1
  · have hx : x ∈ healthy.filter (fun r => r.DnsType == t) := by
      rw [← hperm.mem_iff, hsort]
      simp
    simpa using (List.mem_filter.mp hx).2
  · intro s hs hst
    have hsb : s ∈ healthy.filter (fun r => r.DnsType == t) := by
      rw [List.mem_filter]
      exact ⟨hs, by simp [hst]⟩
    have hsorted := List.sorted_insertionSort recLE
      (healthy.filter (fun r => r.DnsType == t))
    rw [hsort] at hsorted
    have hsb2 : s ∈ x :: tail := by
      rw [← hsort]
      exact hperm.symm.mem_iff.mp hsb
    rcases List.mem_cons.mp hsb2 with rfl | hmem
    · exact le_refl _
    · exact (recLE_iff x s).mp
        (List.rel_of_sorted_cons hsorted s hmem)

/-- C7. For every hostname and record list, the selector output contains
exactly one record per family with at least one healthy record and none
for a family without, each output record is a healthy input record of
maximal priority among the healthy records of its family, and with no
healthy record at all the output is empty. -/
theorem c7_filterHealthyIps_selects_top (hostname : String)
    (ips : List ManagedDnsRecord)
    (hne : ∃ r ∈ ips, r.statusName = HealthyStateName) :
    (∀ t : String,
      (filterHealthyIps hostname ips).countP (fun r => r.DnsType == t) =
        if ips.any (fun r =>
            r.statusName == HealthyStateName && r.DnsType == t) then 1
        else 0) ∧
    (∀ r ∈ filterHealthyIps hostname ips,
      r ∈ ips ∧ r.statusName = HealthyStateName ∧
        ∀ s ∈ ips, s.statusName = HealthyStateName →
          s.DnsType = r.DnsType → s.Priority ≤ r.Priority) ∧
    (∀ ips' : List ManagedDnsRecord,
      (∀ r ∈ ips', r.statusName ≠ HealthyStateName) →
        filterHealthyIps hostname ips' = []) := by
  have hempty : ∀ ips' : List ManagedDnsRecord,
      (∀ r ∈ ips', r.statusName ≠ HealthyStateName) →
        filterHealthyIps hostname ips' = [] := by
    intro ips' hnone
    unfold filterHealthyIps
    have hfil : ips'.filter (fun r => r.statusName == HealthyStateName) =
        [] := by
      rw [List.filter_eq_nil_iff]
      intro a ha
      simpa using hnone a ha
    rw [hfil]
    rfl
  set healthy := ips.filter (fun r => r.statusName == HealthyStateName)
    with hH
  set keys := goMapKeys (healthy.map (·.DnsType)) with hK
  have hkeyne : keys.isEmpty = false := by
    obtain ⟨r, hr, hrs⟩ := hne
    have hrh : r ∈ healthy := by
      rw [hH, List.mem_filter]
      exact ⟨hr, by simp [hrs]⟩
    have : r.DnsType ∈ keys := by
      rw [hK, goMapKeys_mem]
      exact List.mem_map_of_mem _ hrh
    rcases hkeys : keys with _ | _
    · rw [hkeys] at this
      exact absurd this (List.not_mem_nil _)
    · rfl
  have hres : filterHealthyIps hostname ips =
      (keys.map (fun t =>
        match List.insertionSort recLE
            (healthy.filter (fun r => r.DnsType == t)) with
        | [] => ([] : List ManagedDnsRecord)
        | x :: _ => [x])).flatten := by
    simp only [filterHealthyIps]
    rw [← hH, ← hK, hkeyne]
    simp
  have hkey_bucket : ∀ t ∈ keys, ∃ r ∈ healthy, r.DnsType = t := by
    intro t ht
    rw [hK, goMapKeys_mem] at ht
    obtain ⟨r, hr, hrt⟩ := List.mem_map.mp ht
    exact ⟨r, hr, hrt⟩
  refine ⟨?_, ?_, hempty⟩
  · intro t
    rw [hres, countP_flatten_eq_sum, List.map_map]
    have hcongr : (keys.map ((List.countP fun r => r.DnsType == t) ∘
        fun t' =>
          match List.insertionSort recLE
              (healthy.filter (fun r => r.DnsType == t')) with
          | [] => ([] : List ManagedDnsRecord)
          | x :: _ => [x])) =
        keys.map (fun t' => if t' = t then 1 else 0) := by
      apply List.map_congr_left
      intro t' ht'
      obtain ⟨x, tail, hsort, _, hxt, _⟩ :=
        bucket_sort_head healthy t' (hkey_bucket t' ht')
      simp only [Function.comp_apply, hsort]
      rw [List.countP_cons, List.countP_nil]
      simp [hxt]
    rw [hcongr, sum_map_indicator_nodup keys (hK ▸ goMapKeys_nodup _) t]
    have hiff : t ∈ keys ↔ ips.any (fun r =>
        r.statusName == HealthyStateName && r.DnsType == t) = true := by
      rw [hK, goMapKeys_mem, List.any_eq_true]
      constructor
      · intro h
        obtain ⟨r, hr, hrt⟩ := List.mem_map.mp h
        rw [hH, List.mem_filter] at hr
        exact ⟨r, hr.1, by simp_all⟩
      · rintro ⟨r, hr, hrp⟩
        simp only [Bool.and_eq_true, beq_iff_eq] at hrp
        refine List.mem_map.mpr ⟨r, ?_, hrp.2⟩
        rw [hH, List.mem_filter]
        exact ⟨hr, by simp [hrp.1]⟩
    by_cases ht : t ∈ keys
    · rw [if_pos ht, if_pos (hiff.mp ht)]
    · rw [if_neg ht, if_neg (fun hc => ht (hiff.mpr hc))]
  · intro r hr
    rw [hres] at hr
    obtain ⟨block, hblock, hrblock⟩ := List.mem_flatten.mp hr
    obtain ⟨t', ht', hpick⟩ := List.mem_map.mp hblock
    obtain ⟨x, tail, hsort, hxh, hxt, hxmax⟩ :=
      bucket_sort_head healthy t' (hkey_bucket t' ht')
    rw [hsort] at hpick
    rw [← hpick] at hrblock
    have hrx : r = x := by simpa using hrblock
    subst hrx
    have hxips : r ∈ ips ∧ r.statusName = HealthyStateName := by
      have := hxh
      rw [hH, List.mem_filter] at this
      exact ⟨this.1, by simpa using this.2⟩
    refine ⟨hxips.1, hxips.2, ?_⟩
    intro s hs hss hst
    refine hxmax s ?_ (by rw [hst, hxt])
    rw [hH, List.mem_filter]
    exact ⟨hs, by simp [hss]⟩

/-- C7, witness: two healthy `A` records with priorities 10 and 200, one
unhealthy `AAAA` record. Exactly one `A` record is selected, no `AAAA`
record is selected, and the selected record dominates priority 10. -/
theorem c7_witness :
    ((filterHealthyIps "host.example"
        [⟨10, "A", "10.0.0.1", 30, "healthy"⟩,
         ⟨200, "A", "10.0.0.2", 30, "healthy"⟩,
         ⟨5, "AAAA", "::1", 30, "unhealthy"⟩]).countP
      (fun r => r.DnsType == "A") = 1) ∧
    ((filterHealthyIps "host.example"
        [⟨10, "A", "10.0.0.1", 30, "healthy"⟩,
         ⟨200, "A", "10.0.0.2", 30, "healthy"⟩,
         ⟨5, "AAAA", "::1", 30, "unhealthy"⟩]).countP
      (fun r => r.DnsType == "AAAA") = 0) := by
  have h := c7_filterHealthyIps_selects_top "host.example"
    [⟨10, "A", "10.0.0.1", 30, "healthy"⟩,
     ⟨200, "A", "10.0.0.2", 30, "healthy"⟩,
     ⟨5, "AAAA", "::1", 30, "unhealthy"⟩]
    ⟨⟨10, "A", "10.0.0.1", 30, "healthy"⟩, by simp, rfl⟩
  refine ⟨?_, ?_⟩
  · rw [h.1 "A"]
    decide
  · rw [h.1 "AAAA"]
    decide

/-! ## Unbound zone store (`Unbound.UpdateIps` and helpers)

The zone file is an ordered sequence of lines; a line is a Go string,
modelled byte-for-byte as `List Char`. `fmt.Sprintf` concatenations are
modelled by list concatenation with `Nat.repr` for `%d`.
-/

/-- A single zone-file line (a Go string, byte-for-byte). -/
abbrev Line := List Char

/-- `strings.HasPrefix line pfx`. -/
def hasPfx (l pfx : Line) : Bool := pfx.isPrefixOf l

/-- `recordToUnbound(hostname, record)`:
`fmt.Sprintf("local-data: \x22%s %d %s %s\x22", hostname, record.Ttl,
record.DnsType, record.Ip)`. -/
def recordToUnbound (hostname : String) (r : ManagedDnsRecord) : Line :=
  "local-data: \"".data ++ hostname.data ++ " ".data ++
    (Nat.repr r.Ttl).data ++ " ".data ++ r.DnsType.data ++ " ".data ++
    r.Ip.data ++ "\"".data

/-- The ownership test prefix `fmt.Sprintf("local-data: \x22%s ",
dnsRecord)` from `UpdateIps`. -/
def ownedPfx (hostname : String) : Line :=
  "local-data: \"".data ++ hostname.data ++ " ".data

/-- The final value of `wantedRecords[k]` after the scan loop of
`UpdateIps`: the index of the last line with the owned prefix equal to
`k`, if any (each later match overwrites the stored index). `i` is the
index of the first element of the remaining list. -/
def lastMatchIdx (pfx k : Line) : List Line → Nat → Option Nat
  | [], _ => none
  | l :: rest, i =>
    match lastMatchIdx pfx k rest (i + 1) with
    | some j => some j
    | none => if hasPfx l pfx && l == k then some i else none

/-- `Unbound` scan result for one wanted record over the whole file. -/
def presentIdx (pfx k : Line) (lines : List Line) : Option Nat :=
  lastMatchIdx pfx k lines 0

/-- The indices collected in `recordsToRemove`: lines carrying the owned
prefix that equal no wanted record. -/
def staleIdxFrom (pfx : Line) (wanted : List Line) :
    List Line → Nat → List Nat
  | [], _ => []
  | l :: rest, i =>
    if hasPfx l pfx && !(wanted.contains l) then
      i :: staleIdxFrom pfx wanted rest (i + 1)
    else staleIdxFrom pfx wanted rest (i + 1)

/-- `removeIndices(slice, indicesToRemove)`: keep the elements whose index
is not in the removal set. -/
def removeIdxFrom (idxs : List Nat) : List Line → Nat → List Line
  | [], _ => []
  | l :: rest, i =>
    if i ∈ idxs then removeIdxFrom idxs rest (i + 1)
    else l :: removeIdxFrom idxs rest (i + 1)

/-- `slices.Insert(lines, idx, missing...)`. Go panics when
`idx > len(lines)`; the panic is modelled as `none`. -/
def goInsert : List Line → Nat → List Line → Option (List Line)
  | l, 0, vs => some (vs ++ l)
  | [], _ + 1, _ => none
  | x :: rest, n + 1, vs => (goInsert rest n vs).map (fun r => x :: r)

/-- The key set of the Go map `wantedRecords`, in insertion order
(duplicate canonical lines collapse, first occurrence wins). -/
def wantedKeysOf (hostname : String) (records : List ManagedDnsRecord) :
    List Line :=
  goMapKeys (records.map (recordToUnbound hostname))

/-- `recordsToRemove` for one call. -/
def staleOf (hostname : String) (records : List ManagedDnsRecord)
    (lines : List Line) : List Nat :=
  staleIdxFrom (ownedPfx hostname) (wantedKeysOf hostname records) lines 0

/-- `missingRecords` for one call: wanted records never marked present,
in map-key order. -/
def missingOf (hostname : String) (records : List ManagedDnsRecord)
    (lines : List Line) : List Line :=
  (wantedKeysOf hostname records).filter
    (fun k => (presentIdx (ownedPfx hostname) k lines).isNone)

/-- The line sequence after `removeIndices`. -/
def linesAfterRemove (hostname : String) (records : List ManagedDnsRecord)
    (lines : List Line) : List Line :=
  removeIdxFrom (staleOf hostname records lines) lines 0

/-- The insertion anchor `idx`: iterate over the map and keep the last
non-nil stored index (0 when every wanted record is missing). Go map
iteration order is unspecified; key insertion order is the fixed admissible
schedule used throughout. -/
def anchorOf (hostname : String) (records : List ManagedDnsRecord)
    (lines : List Line) : Nat :=
  (wantedKeysOf hostname records).foldl
    (fun acc k =>
      match presentIdx (ownedPfx hostname) k lines with
      | some i => i
      | none => acc) 0

/-- What one `UpdateIps` call decides to do after a successful read:
return unchanged, write a new line sequence, or panic inside
`slices.Insert`. -/
inductive UpdateOutcome where
  | outOfRange : UpdateOutcome
  | noChange : UpdateOutcome
  | write (newLines : List Line) : UpdateOutcome
deriving DecidableEq, Repr

/-- `Unbound.UpdateIps` body between the successful `ReadConf` and the
final `WriteConf` (source lines 45-99): scan, collect stale and missing,
fast path when both are empty, remove stale lines, then append (when
`len(missingRecords) == len(records)`) or insert at the anchor. -/
def updateIpsCore (hostname : String) (records : List ManagedDnsRecord)
    (lines : List Line) : UpdateOutcome :=
  if (missingOf hostname records lines).length = 0 ∧
      (staleOf hostname records lines).length = 0 then
    .noChange
  else if (missingOf hostname records lines).length = records.length then
    .write (linesAfterRemove hostname records lines ++
      missingOf hostname records lines)
  else
    match goInsert (linesAfterRemove hostname records lines)
        (anchorOf hostname records lines)
        (missingOf hostname records lines) with
    | none => .outOfRange
    | some r => .write r

/-- The file-system collaborator `UnboundConfWrapper`, reduced to the two
outcomes `UpdateIps` observes: what `ReadConf` returns and whether
`WriteConf` fails. -/
structure FsModel where
  readResult : Except String (List Line)
  writeError : Option String
deriving Repr

/-- The observable result of one `UpdateIps` call: the returned `bool`,
the returned error, and the argument passed to `WriteConf` (if a write
was attempted). -/
structure CallResult where
  changed : Bool
  err : Option String
  written : Option (List Line)
deriving DecidableEq, Repr

/-- `Unbound.UpdateIps` (source lines 39-100). `none` models a Go panic
(no return value at all). On a read error the code returns `(false, err)`;
on the fast path `(false, nil)` without writing; otherwise it returns
`(true, u.fs.WriteConf(lines))`, i.e. `changed = true` together with
whatever error the write produced. -/
def UpdateIps (fs : FsModel) (hostname : String)
    (records : List ManagedDnsRecord) : Option CallResult :=
  match fs.readResult with
  | .error e => some ⟨false, some e, none⟩
  | .ok lines =>
    match updateIpsCore hostname records lines with
    | .outOfRange => none
    | .noChange => some ⟨false, none, none⟩
    | .write newLines => some ⟨true, fs.writeError, some newLines⟩

/-- The zone file's content after a call that returned: the lines handed
to `WriteConf` when a write was attempted, the unchanged pre-call lines
otherwise. -/
def postFile (pre : List Line) (res : CallResult) : List Line :=
  match res.written with
  | some newLines => newLines
  | none => pre

/-! ### Structural lemmas about the reconciliation helpers -/

/-- Every wanted record carries the owned ownership test prefix. -/
theorem recordToUnbound_owned (hostname : String) (r : ManagedDnsRecord) :
    hasPfx (recordToUnbound hostname r) (ownedPfx hostname) = true := by
  unfold hasPfx recordToUnbound ownedPfx
  rw [List.isPrefixOf_iff_prefix]
  exact ⟨(Nat.repr r.Ttl).data ++ " ".data ++ r.DnsType.data ++ " ".data ++
    r.Ip.data ++ "\"".data, by simp [List.append_assoc]⟩

theorem wantedKeys_owned (hostname : String)
    (records : List ManagedDnsRecord) (k : Line)
    (hk : k ∈ wantedKeysOf hostname records) :
    hasPfx k (ownedPfx hostname) = true := by
  rw [wantedKeysOf, goMapKeys_mem] at hk
  obtain ⟨r, _, rfl⟩ := List.mem_map.mp hk
  exact recordToUnbound_owned hostname r

theorem lastMatchIdx_eq_none_iff (pfx k : Line) (lines : List Line)
    (n : Nat) :
    lastMatchIdx pfx k lines n = none ↔
      ∀ l ∈ lines, ¬(hasPfx l pfx = true ∧ l = k) := by
  induction lines generalizing n with
  | nil => simp [lastMatchIdx]
  | cons l rest ih =>
    rw [lastMatchIdx]
    rcases htail : lastMatchIdx pfx k rest (n + 1) with _ | j
    · simp only [List.mem_cons]
      constructor
      · intro h a ha
        rcases ha with rfl | ha
        · intro hc
          obtain ⟨h1, rfl⟩ := hc
          rw [if_pos (by simp [h1])] at h
          exact Option.noConfusion h
        · exact ((ih (n + 1)).mp htail) a ha
      · intro h
        rw [if_neg ?_]
        intro hc
        have := h l (.inl rfl)
        rw [Bool.and_eq_true, beq_iff_eq] at hc
        exact this ⟨hc.1, hc.2⟩
    · constructor
      · intro h
        exact Option.noConfusion h
      · intro h
        have : lastMatchIdx pfx k rest (n + 1) = none :=
          (ih (n + 1)).mpr (fun a ha => h a (List.mem_cons_of_mem l ha))
        rw [this] at htail
        exact Option.noConfusion htail

/-- For a wanted record (which always carries the owned prefix), "never
marked present" is exactly "the line does not occur in the file". -/
theorem presentIdx_eq_none_iff (hostname : String) (k : Line)
    (lines : List Line) (hk : hasPfx k (ownedPfx hostname) = true) :
    presentIdx (ownedPfx hostname) k lines = none ↔ k ∉ lines := by
  rw [presentIdx, lastMatchIdx_eq_none_iff]
  constructor
  · intro h hmem
    exact h k hmem ⟨hk, rfl⟩
  · intro h l hl hc
    rw [hc.2] at hl
    exact h hl

theorem lastMatchIdx_some (pfx k : Line) (lines : List Line) (n j : Nat)
    (h : lastMatchIdx pfx k lines n = some j) :
    ∃ m, ∃ hm : m < lines.length,
      j = n + m ∧ lines.get ⟨m, hm⟩ = k := by
  induction lines generalizing n j with
  | nil => exact Option.noConfusion h
  | cons l rest ih =>
    rw [lastMatchIdx] at h
    rcases htail : lastMatchIdx pfx k rest (n + 1) with _ | j'
    · rw [htail] at h
      by_cases hc : (hasPfx l pfx && l == k) = true
      · rw [if_pos hc] at h
        obtain rfl := Option.some.inj h
        rw [Bool.and_eq_true, beq_iff_eq] at hc
        refine ⟨0, by simp, by omega, ?_⟩
        exact hc.2
      · rw [if_neg hc] at h
        exact Option.noConfusion h
    · rw [htail] at h
      obtain rfl := Option.some.inj h
      obtain ⟨m, hm, hj, hget⟩ := ih (n + 1) j' htail
      refine ⟨m + 1, by simpa using hm, by omega, ?_⟩
      simpa using hget

theorem presentIdx_some (hostname : String) (k : Line) (lines : List Line)
    (j : Nat) (h : presentIdx (ownedPfx hostname) k lines = some j) :
    ∃ hj : j < lines.length, lines.get ⟨j, hj⟩ = k := by
  obtain ⟨m, hm, hj, hget⟩ := lastMatchIdx_some _ k lines 0 j h
  subst hj
  exact ⟨by simpa using hm, by simpa using hget⟩

theorem presentIdx_isSome_mem (hostname : String) (k : Line)
    (lines : List Line)
    (h : (presentIdx (ownedPfx hostname) k lines).isSome = true) :
    k ∈ lines := by
  rcases hp : presentIdx (ownedPfx hostname) k lines with _ | j
  · rw [hp] at h
    exact Bool.noConfusion h
  · obtain ⟨hj, hget⟩ := presentIdx_some hostname k lines j hp
    rw [← hget]
    exact List.get_mem lines j hj

theorem staleIdxFrom_lb (pfx : Line) (w : List Line) (lines : List Line)
    (n : Nat) : ∀ j ∈ staleIdxFrom pfx w lines n, n ≤ j := by
  induction lines generalizing n with
  | nil => simp [staleIdxFrom]
  | cons l rest ih =>
    intro j hj
    rw [staleIdxFrom] at hj
    by_cases hc : (hasPfx l pfx && !(w.contains l)) = true
    · rw [if_pos hc] at hj
      rcases List.mem_cons.mp hj with rfl | hj
      · exact le_refl j
      · exact le_trans (Nat.le_succ n) (ih (n + 1) j hj)
    · rw [if_neg hc] at hj
      exact le_trans (Nat.le_succ n) (ih (n + 1) j hj)

theorem staleIdxFrom_eq_nil_iff (pfx : Line) (w : List Line)
    (lines : List Line) (n : Nat) :
    staleIdxFrom pfx w lines n = [] ↔
      ∀ l ∈ lines, (hasPfx l pfx && !(w.contains l)) = false := by
  induction lines generalizing n with
  | nil => simp [staleIdxFrom]
  | cons l rest ih =>
    rw [staleIdxFrom]
    by_cases hc : (hasPfx l pfx && !(w.contains l)) = true
    · rw [if_pos hc]
      simp only [List.mem_cons]
      constructor
      · intro h
        exact List.noConfusion h
      · intro h
        rw [h l (.inl rfl)] at hc
        exact Bool.noConfusion hc
    · rw [if_neg hc]
      rw [ih (n + 1)]
      simp only [List.mem_cons]
      constructor
      · intro h a ha
        rcases ha with rfl | ha
        · exact Bool.eq_false_iff.mpr hc
        · exact h a ha
      · intro h a ha
        exact h a (.inr ha)

theorem removeIdxFrom_congr (idxs idxs' : List Nat) (lines : List Line)
    (n : Nat) (h : ∀ i, n ≤ i → (i ∈ idxs ↔ i ∈ idxs')) :
    removeIdxFrom idxs lines n = removeIdxFrom idxs' lines n := by
  induction lines generalizing n with
  | nil => rfl
  | cons l rest ih =>
    rw [removeIdxFrom, removeIdxFrom]
    have hn := h n (le_refl n)
    have hrest := ih (n + 1)
      (fun i hi => h i (le_trans (Nat.le_succ n) hi))
    by_cases hmem : n ∈ idxs
    · rw [if_pos hmem, if_pos (hn.mp hmem), hrest]
    · rw [if_neg hmem, if_neg (fun hc => hmem (hn.mpr hc)), hrest]

/-- `removeIndices` applied to the stale index set is content-directed
filtering: exactly the owned-but-unwanted lines disappear. -/
theorem removeIdx_staleIdx (pfx : Line) (w : List Line)
    (lines : List Line) (n : Nat) :
    removeIdxFrom (staleIdxFrom pfx w lines n) lines n =
      lines.filter (fun l => !(hasPfx l pfx && !(w.contains l))) := by
  induction lines generalizing n with
  | nil => rfl
  | cons l rest ih =>
    rw [staleIdxFrom]
    by_cases hc : (hasPfx l pfx && !(w.contains l)) = true
    · rw [if_pos hc, removeIdxFrom, if_pos (List.mem_cons_self _ _)]
      have hcongr := removeIdxFrom_congr
        (n :: staleIdxFrom pfx w rest (n + 1))
        (staleIdxFrom pfx w rest (n + 1)) rest (n + 1)
        (fun i hi => by
          simp only [List.mem_cons]
          constructor
          · rintro (rfl | h)
            · omega
            · exact h
          · exact fun h => .inr h)
      rw [hcongr, ih (n + 1), List.filter_cons, hc]
      simp
    · rw [if_neg hc, removeIdxFrom]
      have hnmem : n ∉ staleIdxFrom pfx w rest (n + 1) := by
        intro hmem
        have := staleIdxFrom_lb pfx w rest (n + 1) n hmem
        omega
      rw [if_neg hnmem, ih (n + 1), List.filter_cons]
      have hfalse : (hasPfx l pfx && !(w.contains l)) = false :=
        Bool.eq_false_iff.mpr hc
      rw [hfalse]
      simp

theorem removeIdxFrom_split (idxs : List Nat) (lines : List Line)
    (n t : Nat) (h : ∀ j ∈ idxs, n + t ≤ j) :
    removeIdxFrom idxs lines n =
      lines.take t ++ removeIdxFrom idxs (lines.drop t) (n + t) := by
  induction t generalizing lines n with
  | zero => simp
  | succ t iht =>
    rcases lines with _ | ⟨l, rest⟩
    · simp [removeIdxFrom]
    · rw [removeIdxFrom, List.take_succ_cons, List.drop_succ_cons]
      have hn : n ∉ idxs := fun hc => by
        have := h n hc
        omega
      rw [if_neg hn, List.cons_append]
      have hsplit := iht rest (n + 1) (fun j hj => by
        have := h j hj
        omega)
      rw [hsplit, show n + 1 + t = n + (t + 1) from by omega]

theorem goInsert_eq_some (l : List Line) (i : Nat) (vs : List Line)
    (h : i ≤ l.length) :
    goInsert l i vs = some (l.take i ++ vs ++ l.drop i) := by
  induction i generalizing l with
  | zero => simp [goInsert]
  | succ i ih =>
    rcases l with _ | ⟨x, rest⟩
    · simp at h
    · rw [goInsert, ih rest (by simpa using h)]
      simp

theorem goInsert_some_inv (l : List Line) (i : Nat) (vs r : List Line)
    (h : goInsert l i vs = some r) :
    i ≤ l.length ∧ r = l.take i ++ vs ++ l.drop i := by
  induction i generalizing l r with
  | zero =>
    rw [goInsert] at h
    obtain rfl := Option.some.inj h
    simp
  | succ i ih =>
    rcases l with _ | ⟨x, rest⟩
    · exact Option.noConfusion h
    · rw [goInsert] at h
      rcases hrec : goInsert rest i vs with _ | r'
      · rw [hrec] at h
        exact Option.noConfusion h
      · rw [hrec] at h
        obtain rfl := Option.some.inj h
        obtain ⟨hle, rfl⟩ := ih rest r' hrec
        exact ⟨by simpa using Nat.succ_le_succ hle, by simp⟩

theorem goMapKeys_loop_eq_self {α : Type} [DecidableEq α]
    (l acc : List α) (h : (acc ++ l).Nodup) :
    l.foldl (fun acc k => if k ∈ acc then acc else acc ++ [k]) acc =
      acc ++ l := by
  induction l generalizing acc with
  | nil => simp
  | cons k rest ih =>
    rw [List.foldl_cons]
    have hk : k ∉ acc := by
      intro hc
      rw [List.nodup_append] at h
      exact h.2.2 hc (List.mem_cons_self _ _)
    rw [if_neg hk, ih (acc ++ [k]) (by simpa using h)]
    simp

theorem goMapKeys_eq_self {α : Type} [DecidableEq α] (l : List α)
    (h : l.Nodup) : goMapKeys l = l := by
  unfold goMapKeys
  rw [goMapKeys_loop_eq_self l [] (by simpa using h)]
  simp

theorem foldl_const_of_none {α : Type} (g : α → Option Nat) (l : List α)
    (h : ∀ k ∈ l, g k = none) (acc : Nat) :
    l.foldl (fun acc k =>
      match g k with
      | some i => i
      | none => acc) acc = acc := by
  induction l generalizing acc with
  | nil => rfl
  | cons b rest ih =>
    rw [List.foldl_cons, h b (List.mem_cons_self _ _)]
    exact ih (fun k hk => h k (List.mem_cons_of_mem b hk)) acc

/-- The anchor fold returns the stored index of some wanted record, as
soon as at least one wanted record was marked present. -/
theorem foldl_lastSome {α : Type} (g : α → Option Nat) (l : List α)
    (init : Nat) (h : ∃ k ∈ l, (g k).isSome = true) :
    ∃ k ∈ l,
      g k = some (l.foldl (fun acc k =>
        match g k with
        | some i => i
        | none => acc) init) := by
  induction l generalizing init with
  | nil => simp at h
  | cons a rest ih =>
    rw [List.foldl_cons]
    by_cases hrest : ∃ k ∈ rest, (g k).isSome = true
    · obtain ⟨k, hk, hgk⟩ := ih _ hrest
      exact ⟨k, List.mem_cons_of_mem a hk, hgk⟩
    · have hnone : ∀ k ∈ rest, g k = none := by
        intro k hk
        rcases hgk : g k with _ | i
        · rfl
        · exact absurd ⟨k, hk, by rw [hgk]; rfl⟩ hrest
      have ha : (g a).isSome = true := by
        obtain ⟨k, hk, hgk⟩ := h
        rcases List.mem_cons.mp hk with rfl | hk
        · exact hgk
        · rw [hnone k hk] at hgk
          exact Bool.noConfusion hgk
      rcases hga : g a with _ | i
      · rw [hga] at ha
        exact Bool.noConfusion ha
      · refine ⟨a, List.mem_cons_self _ _, ?_⟩
        rw [hga, foldl_const_of_none g rest hnone i]

/-! ### Inversion lemmas for `updateIpsCore` -/

theorem core_noChange_iff (hostname : String)
    (records : List ManagedDnsRecord) (lines : List Line) :
    updateIpsCore hostname records lines = .noChange ↔
      (missingOf hostname records lines).length = 0 ∧
        (staleOf hostname records lines).length = 0 := by
  unfold updateIpsCore
  constructor
  · intro h
    by_cases hfast : (missingOf hostname records lines).length = 0 ∧
        (staleOf hostname records lines).length = 0
    · exact hfast
    · rw [if_neg hfast] at h
      by_cases happ : (missingOf hostname records lines).length =
          records.length
      · rw [if_pos happ] at h
        exact UpdateOutcome.noConfusion h
      · rw [if_neg happ] at h
        rcases hins : goInsert (linesAfterRemove hostname records lines)
            (anchorOf hostname records lines)
            (missingOf hostname records lines) with _ | r
        · rw [hins] at h
          exact UpdateOutcome.noConfusion h
        · rw [hins] at h
          exact UpdateOutcome.noConfusion h
  · intro h
    rw [if_pos h]

theorem core_write_inv (hostname : String)
    (records : List ManagedDnsRecord) (lines : List Line) (nl : List Line)
    (h : updateIpsCore hostname records lines = .write nl) :
    nl = linesAfterRemove hostname records lines ++
        missingOf hostname records lines ∨
      ∃ i, nl = (linesAfterRemove hostname records lines).take i ++
          missingOf hostname records lines ++
          (linesAfterRemove hostname records lines).drop i := by
  unfold updateIpsCore at h
  by_cases hfast : (missingOf hostname records lines).length = 0 ∧
      (staleOf hostname records lines).length = 0
  · rw [if_pos hfast] at h
    exact UpdateOutcome.noConfusion h
  · rw [if_neg hfast] at h
    by_cases happ : (missingOf hostname records lines).length =
        records.length
    · rw [if_pos happ] at h
      exact .inl (UpdateOutcome.write.inj h).symm
    · rw [if_neg happ] at h
      rcases hins : goInsert (linesAfterRemove hostname records lines)
          (anchorOf hostname records lines)
          (missingOf hostname records lines) with _ | r
      · rw [hins] at h
        exact UpdateOutcome.noConfusion h
      · rw [hins] at h
        obtain rfl : r = nl := UpdateOutcome.write.inj h
        obtain ⟨_, hdecomp⟩ := goInsert_some_inv _ _ _ _ hins
        exact .inr ⟨anchorOf hostname records lines, hdecomp⟩

/-- Both write shapes are, as multisets, "the kept lines plus the missing
lines". -/
theorem write_shape_perm (l2 vs nl : List Line)
    (h : nl = l2 ++ vs ∨ ∃ i, nl = l2.take i ++ vs ++ l2.drop i) :
    List.Perm nl (l2 ++ vs) := by
  rcases h with rfl | ⟨i, rfl⟩
  · exact List.Perm.refl _
  · have h2 : List.Perm (l2.take i ++ (vs ++ l2.drop i))
        (l2.take i ++ (l2.drop i ++ vs)) :=
      List.Perm.append_left _ List.perm_append_comm
    rw [List.append_assoc]
    refine h2.trans ?_
    rw [← List.append_assoc, List.take_append_drop]

/-- Lines failing a predicate that every inserted line satisfies are
exactly the kept such lines, in order. -/
theorem write_shape_filter (q : Line → Bool) (l2 vs nl : List Line)
    (hv : vs.filter q = [])
    (h : nl = l2 ++ vs ∨ ∃ i, nl = l2.take i ++ vs ++ l2.drop i) :
    nl.filter q = l2.filter q := by
  rcases h with rfl | ⟨i, rfl⟩
  · rw [List.filter_append, hv, List.append_nil]
  · rw [List.filter_append, List.filter_append, hv, List.append_nil,
      ← List.filter_append, List.take_append_drop]

/-! ### C10: the changed flag and the write attempt -/

/-- C10. Whenever `UpdateIps` returns (no panic): `changed = true` exactly
when a write was attempted; on the write path the returned error is
whatever `WriteConf` produced (so `changed = true` can coexist with a
failed write); and a `(false, nil)` return happens only on the no-change
fast path after a successful read, with no write attempted. -/
theorem c10_changed_iff_write (fs : FsModel) (hostname : String)
    (records : List ManagedDnsRecord) (res : CallResult)
    (hres : UpdateIps fs hostname records = some res) :
    (res.changed = true ↔ res.written.isSome = true) ∧
    (res.changed = true → res.err = fs.writeError) ∧
    (res.changed = false → res.err = none →
      res.written = none ∧
        ∃ lines, fs.readResult = .ok lines ∧
          updateIpsCore hostname records lines = .noChange) := by
  rcases fs with ⟨rr, we⟩
  rcases rr with e | lines
  · simp only [UpdateIps] at hres
    obtain rfl := Option.some.inj hres
    refine ⟨by simp, by simp, ?_⟩
    intro _ herr
    exact absurd herr (by simp)
  · simp only [UpdateIps] at hres
    rcases hcore : updateIpsCore hostname records lines with _ | _ | nl
    · rw [hcore] at hres
      exact Option.noConfusion hres
    · rw [hcore] at hres
      obtain rfl := Option.some.inj hres
      refine ⟨by simp, by simp, ?_⟩
      intro _ _
      exact ⟨rfl, lines, rfl, hcore⟩
    · rw [hcore] at hres
      obtain rfl := Option.some.inj hres
      refine ⟨by simp, fun _ => rfl, ?_⟩
      intro hfalse
      exact absurd hfalse (by simp)

/-- Sample managed records and zone lines for the concrete witnesses and
counterexamples. -/
def recA : ManagedDnsRecord := ⟨200, "A", "1.2.3.4", 30, "healthy"⟩

def recB : ManagedDnsRecord := ⟨100, "A", "5.6.7.8", 30, "healthy"⟩

def lineA : Line := recordToUnbound "h" recA

def lineB : Line := recordToUnbound "h" recB

def staleLn : Line := "local-data: \"h 60 A 9.9.9.9\"".data

def staleLn2 : Line := "local-data: \"h 61 A 9.9.9.9\"".data

/-- C10, witness: on an empty file with one desired record and a failing
write, the call returns `changed = true` with the write error, and the
equivalence instantiates. -/
theorem c10_witness :
    ((⟨true, some "disk full", some [lineA]⟩ : CallResult).changed = true ↔
      (⟨true, some "disk full", some [lineA]⟩ :
        CallResult).written.isSome = true) ∧
    (⟨true, some "disk full", some [lineA]⟩ : CallResult).err =
      FsModel.writeError ⟨.ok [], some "disk full"⟩ := by
  have h := c10_changed_iff_write ⟨.ok [], some "disk full"⟩ "h" [recA]
    ⟨true, some "disk full", some [lineA]⟩ (by rfl)
  exact ⟨h.1, h.2.1 rfl⟩

/-! ### C2 and C4: counterexamples -/

/-- C2, counterexample. A file holding the desired line twice: the call
returns without error (`changed = false`, nothing written), yet the
post-call owned lines are `[lineA, lineA]`, a multiset of size 2, not the
canonical lines of the desired list of size 1. -/
theorem c2_counterexample :
    UpdateIps ⟨.ok [lineA, lineA], none⟩ "h" [recA] =
        some ⟨false, none, none⟩ ∧
      ¬ (List.Perm ((postFile [lineA, lineA] ⟨false, none, none⟩).filter
          (fun l => hasPfx l (ownedPfx "h")))
        ([recA].map (recordToUnbound "h"))) := by
  constructor
  · rfl
  · decide

/-- C4, counterexample. File `[staleLn, "other", lineA]`, desired
`[recA, recB]`: `lineA` is present at original index 2, `staleLn` is
removed, and the missing `lineB` is inserted at index 2 of the shortened
list `["other", lineA]` — *after* the surviving present desired line
`lineA`, not immediately before it as the claim requires. -/
theorem c4_counterexample :
    UpdateIps ⟨.ok [staleLn, "other".data, lineA], none⟩ "h" [recA, recB] =
        some ⟨true, none, some ["other".data, lineA, lineB]⟩ ∧
      ["other".data, lineA, lineB] ≠ ["other".data, lineB, lineA] := by
  constructor
  · rfl
  · decide

theorem contains_true_iff (l : List Line) (x : Line) :
    l.contains x = true ↔ x ∈ l :=
  List.elem_iff

/-- The missing records are the wanted records that do not occur in the
file. -/
theorem missingOf_eq_filter_not_mem (hostname : String)
    (records : List ManagedDnsRecord) (lines : List Line) :
    missingOf hostname records lines =
      (wantedKeysOf hostname records).filter
        (fun k => !(lines.contains k)) := by
  unfold missingOf
  apply List.filter_congr
  intro k hk
  have howned := wantedKeys_owned hostname records k hk
  by_cases hm : k ∈ lines
  · have h1 : presentIdx (ownedPfx hostname) k lines ≠ none :=
      fun hc => ((presentIdx_eq_none_iff hostname k lines howned).mp hc) hm
    rcases hp : presentIdx (ownedPfx hostname) k lines with _ | j
    · exact absurd hp h1
    · have h2 : lines.contains k = true := (contains_true_iff _ _).mpr hm
      rw [h2]
      rfl
  · have h1 : presentIdx (ownedPfx hostname) k lines = none :=
      (presentIdx_eq_none_iff hostname k lines howned).mpr hm
    have h2 : lines.contains k = false := by
      rcases hc : lines.contains k with _ | _
      · rfl
      · exact absurd ((contains_true_iff _ _).mp hc) hm
    rw [h1, h2]
    rfl

/-- C2, amended. If `UpdateIps` returns without error, **and** the desired
canonical lines are pairwise distinct, **and** the pre-call owned lines
are duplicate-free, then the post-call owned lines are exactly the
canonical lines of the desired records as a multiset (in particular of
size `|desired|`), and the non-owned lines are unchanged and keep their
relative order. (Without the two duplicate-freedom conditions the claim
fails: duplicate owned copies of a desired line all survive.) -/
theorem c2_amended (hostname : String) (records : List ManagedDnsRecord)
    (lines : List Line) (fs : FsModel) (res : CallResult)
    (hread : fs.readResult = .ok lines)
    (hW : (records.map (recordToUnbound hostname)).Nodup)
    (hO : (lines.filter (fun l => hasPfx l (ownedPfx hostname))).Nodup)
    (hcall : UpdateIps fs hostname records = some res)
    (hok : res.err = none) :
    List.Perm ((postFile lines res).filter
        (fun l => hasPfx l (ownedPfx hostname)))
      (records.map (recordToUnbound hostname)) ∧
    (postFile lines res).filter
        (fun l => !(hasPfx l (ownedPfx hostname))) =
      lines.filter (fun l => !(hasPfx l (ownedPfx hostname))) := by
  have hwk : wantedKeysOf hostname records =
      records.map (recordToUnbound hostname) := by
    unfold wantedKeysOf
    exact goMapKeys_eq_self _ hW
  have hwkNodup : (wantedKeysOf hostname records).Nodup := by
    rw [hwk]
    exact hW
  rcases fs with ⟨rr, we⟩
  have hrr : rr = .ok lines := hread
  subst hrr
  simp only [UpdateIps] at hcall
  rcases hcore : updateIpsCore hostname records lines with _ | _ | nl <;>
    rw [hcore] at hcall
  · exact Option.noConfusion hcall
  · obtain rfl := Option.some.inj hcall
    refine ⟨?_, rfl⟩
    show List.Perm (lines.filter (fun l => hasPfx l (ownedPfx hostname))) _
    rw [← hwk]
    obtain ⟨hmiss, hstale⟩ := (core_noChange_iff _ _ _).mp hcore
    have hstaleNil : staleOf hostname records lines = [] :=
      List.length_eq_zero.mp hstale
    have hmissNil : missingOf hostname records lines = [] :=
      List.length_eq_zero.mp hmiss
    unfold staleOf at hstaleNil
    unfold missingOf at hmissNil
    have hforward : ∀ l ∈ lines, hasPfx l (ownedPfx hostname) = true →
        l ∈ wantedKeysOf hostname records := by
      intro l hl ho
      have hs := (staleIdxFrom_eq_nil_iff _ _ lines 0).mp hstaleNil l hl
      rw [ho, Bool.true_and, Bool.not_eq_false'] at hs
      exact (contains_true_iff _ _).mp hs
    have hback : ∀ k ∈ wantedKeysOf hostname records, k ∈ lines := by
      intro k hk
      have h1 := List.filter_eq_nil_iff.mp hmissNil k hk
      have howned := wantedKeys_owned hostname records k hk
      by_cases hm : k ∈ lines
      · exact hm
      · exact absurd (by
          rw [(presentIdx_eq_none_iff hostname k lines howned).mpr hm]
          rfl) h1
    apply (List.perm_ext_iff_of_nodup hO hwkNodup).mpr
    intro x
    rw [List.mem_filter]
    constructor
    · rintro ⟨hx1, hx2⟩
      exact hforward x hx1 hx2
    · intro hx
      exact ⟨hback x hx, wantedKeys_owned hostname records x hx⟩
  · obtain rfl := Option.some.inj hcall
    show List.Perm (nl.filter _) _ ∧ nl.filter _ = _
    have hinv := core_write_inv _ _ _ _ hcore
    have hl2 : linesAfterRemove hostname records lines =
        lines.filter (fun l => !(hasPfx l (ownedPfx hostname) &&
          !((wantedKeysOf hostname records).contains l))) := by
      unfold linesAfterRemove staleOf
      exact removeIdx_staleIdx _ _ lines 0
    have hmsOwned : ∀ k ∈ missingOf hostname records lines,
        hasPfx k (ownedPfx hostname) = true := by
      intro k hk
      unfold missingOf at hk
      exact wantedKeys_owned hostname records k (List.mem_filter.mp hk).1
    constructor
    · have hperm1 := write_shape_perm _ _ _ hinv
      have hpf := hperm1.filter (fun l => hasPfx l (ownedPfx hostname))
      rw [List.filter_append] at hpf
      have hmsf : (missingOf hostname records lines).filter
          (fun l => hasPfx l (ownedPfx hostname)) =
          missingOf hostname records lines :=
        List.filter_eq_self.mpr hmsOwned
      rw [hmsf] at hpf
      have hl2f : (linesAfterRemove hostname records lines).filter
          (fun l => hasPfx l (ownedPfx hostname)) =
          lines.filter (fun a => hasPfx a (ownedPfx hostname) &&
            (wantedKeysOf hostname records).contains a) := by
        rw [hl2, List.filter_filter]
        apply List.filter_congr
        intro a _
        cases ho : hasPfx a (ownedPfx hostname) <;>
          cases hc : (wantedKeysOf hostname records).contains a <;>
            simp [ho, hc]
      rw [hl2f] at hpf
      have hA : List.Perm
          (lines.filter (fun a => hasPfx a (ownedPfx hostname) &&
            (wantedKeysOf hostname records).contains a))
          ((wantedKeysOf hostname records).filter
            (fun k => lines.contains k)) := by
        have hnd1 : (lines.filter (fun a => hasPfx a (ownedPfx hostname) &&
            (wantedKeysOf hostname records).contains a)).Nodup := by
          have heq : lines.filter (fun a => hasPfx a (ownedPfx hostname) &&
              (wantedKeysOf hostname records).contains a) =
              (lines.filter
                (fun l => hasPfx l (ownedPfx hostname))).filter
                (fun a => (wantedKeysOf hostname records).contains a) := by
            rw [List.filter_filter]
            apply List.filter_congr
            intro a _
            cases ho : hasPfx a (ownedPfx hostname) <;>
              cases hc : (wantedKeysOf hostname records).contains a <;>
                simp [ho, hc]
          rw [heq]
          exact hO.filter _
        apply (List.perm_ext_iff_of_nodup hnd1 (hwkNodup.filter _)).mpr
        intro x
        rw [List.mem_filter, List.mem_filter, Bool.and_eq_true]
        constructor
        · rintro ⟨hx1, hx2, hx3⟩
          exact ⟨(contains_true_iff _ _).mp hx3,
            (contains_true_iff _ _).mpr hx1⟩
        · rintro ⟨hx1, hx2⟩
          exact ⟨(contains_true_iff _ _).mp hx2,
            wantedKeys_owned hostname records x hx1,
            (contains_true_iff _ _).mpr hx1⟩
      have hsplit : List.Perm
          ((wantedKeysOf hostname records).filter
              (fun k => lines.contains k) ++
            missingOf hostname records lines)
          (wantedKeysOf hostname records) := by
        rw [missingOf_eq_filter_not_mem]
        exact List.filter_append_perm _ _
      refine hpf.trans ?_
      refine ((hA.append_right (missingOf hostname records lines)).trans
        hsplit).trans ?_
      rw [hwk]
    · apply write_shape_filter _ _ _ _ ?_ hinv |>.trans ?_
      · rw [List.filter_eq_nil_iff]
        intro a ha
        simp [hmsOwned a ha]
      · rw [hl2, List.filter_filter]
        apply List.filter_congr
        intro a _
        cases ho : hasPfx a (ownedPfx hostname) <;> simp [ho]

/-- C2, amended, witness: the TTL-drift test vector of the repository. The
stale owned line is replaced, the unrelated line is untouched. -/
theorem c2_amended_witness :
    List.Perm ((postFile ["local-data: \"h 60 A 1.2.3.4\"".data,
        "unrelated".data]
        ⟨true, none, some ["unrelated".data, lineA]⟩).filter
        (fun l => hasPfx l (ownedPfx "h")))
      ([recA].map (recordToUnbound "h")) ∧
    (postFile ["local-data: \"h 60 A 1.2.3.4\"".data, "unrelated".data]
        ⟨true, none, some ["unrelated".data, lineA]⟩).filter
        (fun l => !(hasPfx l (ownedPfx "h"))) =
      ["local-data: \"h 60 A 1.2.3.4\"".data, "unrelated".data].filter
        (fun l => !(hasPfx l (ownedPfx "h"))) := by
  exact c2_amended "h" [recA]
    ["local-data: \"h 60 A 1.2.3.4\"".data, "unrelated".data]
    ⟨.ok ["local-data: \"h 60 A 1.2.3.4\"".data, "unrelated".data], none⟩
    ⟨true, none, some ["unrelated".data, lineA]⟩
    rfl (by decide) (by decide) (by rfl) rfl

/-- C9. If a call returns without error, the immediately following call
with the same desired records over the resulting file takes the no-change
fast path: it returns `changed = false` with no error and attempts no
write, whatever the second call's file system would do. -/
theorem c9_idempotent (hostname : String) (records : List ManagedDnsRecord)
    (lines : List Line) (fs : FsModel) (res : CallResult)
    (hread : fs.readResult = .ok lines)
    (hcall : UpdateIps fs hostname records = some res)
    (hok : res.err = none)
    (fs2 : FsModel)
    (hread2 : fs2.readResult = .ok (postFile lines res)) :
    UpdateIps fs2 hostname records = some ⟨false, none, none⟩ := by
  rcases fs with ⟨rr, we⟩
  have hrr : rr = .ok lines := hread
  subst hrr
  rcases fs2 with ⟨rr2, we2⟩
  have hrr2 : rr2 = .ok (postFile lines res) := hread2
  subst hrr2
  simp only [UpdateIps] at hcall ⊢
  rcases hcore : updateIpsCore hostname records lines with _ | _ | nl <;>
    rw [hcore] at hcall
  · exact Option.noConfusion hcall
  · obtain rfl := Option.some.inj hcall
    rw [show postFile lines (⟨false, none, none⟩ : CallResult) = lines
      from rfl, hcore]
  · obtain rfl := Option.some.inj hcall
    rw [show postFile lines (⟨true, we, some nl⟩ : CallResult) = nl
      from rfl]
    have hinv := core_write_inv _ _ _ _ hcore
    have hperm := write_shape_perm _ _ _ hinv
    have hl2 : linesAfterRemove hostname records lines =
        lines.filter (fun l => !(hasPfx l (ownedPfx hostname) &&
          !((wantedKeysOf hostname records).contains l))) := by
      unfold linesAfterRemove staleOf
      exact removeIdx_staleIdx _ _ lines 0
    have hmem_nl : ∀ l, l ∈ nl ↔
        (l ∈ linesAfterRemove hostname records lines ∨
          l ∈ missingOf hostname records lines) := by
      intro l
      rw [hperm.mem_iff, List.mem_append]
    have hstale2 : staleOf hostname records nl = [] := by
      unfold staleOf
      rw [staleIdxFrom_eq_nil_iff]
      intro l hl
      rcases (hmem_nl l).mp hl with hl2mem | hmsmem
      · rw [hl2, List.mem_filter] at hl2mem
        have := hl2mem.2
        rw [Bool.not_eq_true'] at this
        exact this
      · unfold missingOf at hmsmem
        have hwkmem := (List.mem_filter.mp hmsmem).1
        have : (wantedKeysOf hostname records).contains l = true :=
          (contains_true_iff _ _).mpr hwkmem
        rw [this]
        simp
    have hmiss2 : missingOf hostname records nl = [] := by
      rw [missingOf_eq_filter_not_mem, List.filter_eq_nil_iff]
      intro k hk
      have hknl : k ∈ nl := by
        rw [hmem_nl k]
        by_cases hm : k ∈ lines
        · left
          rw [hl2, List.mem_filter]
          refine ⟨hm, ?_⟩
          have : (wantedKeysOf hostname records).contains k = true :=
            (contains_true_iff _ _).mpr hk
          rw [this]
          simp
        · right
          unfold missingOf
          rw [List.mem_filter]
          refine ⟨hk, ?_⟩
          rw [(presentIdx_eq_none_iff hostname k lines
            (wantedKeys_owned hostname records k hk)).mpr hm]
          rfl
      have : nl.contains k = true := (contains_true_iff _ _).mpr hknl
      rw [this]
      simp
    have hcore2 : updateIpsCore hostname records nl = .noChange := by
      rw [core_noChange_iff]
      constructor
      · rw [hmiss2]
        rfl
      · rw [hstale2]
        rfl
    rw [hcore2]

/-- C9, witness: after appending the missing desired line to a one-line
file, the second call over the result is a no-op even under a broken
writer. -/
theorem c9_witness :
    UpdateIps ⟨.ok ["unrelated".data, lineA], some "boom"⟩ "h" [recA] =
      some ⟨false, none, none⟩ := by
  have h := c9_idempotent "h" [recA] ["unrelated".data]
    ⟨.ok ["unrelated".data], none⟩
    ⟨true, none, some ["unrelated".data, lineA]⟩
    rfl (by rfl) rfl
    ⟨.ok ["unrelated".data, lineA], some "boom"⟩ (by rfl)
  exact h

theorem length_filter_lt_of_mem_not (l : List Line) (p : Line → Bool)
    (x : Line) (hx : x ∈ l) (hpx : p x = false) :
    (l.filter p).length < l.length := by
  induction l with
  | nil => cases hx
  | cons a rest ih =>
    rcases List.mem_cons.mp hx with rfl | hx
    · rw [List.filter_cons, hpx, if_neg Bool.false_ne_true]
      have := List.length_filter_le p rest
      simp only [List.length_cons]
      omega
    · rw [List.filter_cons]
      by_cases hpa : p a = true
      · rw [if_pos hpa]
        have := ih hx
        simp only [List.length_cons]
        omega
      · rw [if_neg hpa]
        have := ih hx
        simp only [List.length_cons]
        omega

/-- C4, amended. On a write: (i) when *no* desired line occurs in the file
(and the desired canonical lines are pairwise distinct, so the
`len(missing) == len(records)` test coincides with "nothing present"),
the missing lines are appended at the end; (ii) otherwise, provided no
removed stale line precedes the anchor, the missing lines are inserted
immediately before the anchor — the surviving present desired line whose
stored index the map iteration yields last — which still sits at its
original index. (The counterexample shows the general case: the insertion
offset is the anchor's *pre-removal* index applied to the post-removal
sequence, so every removal before the anchor shifts the insertion past
it.) The outcome is a deterministic function of the file, the desired
records and the fixed map iteration order. -/
theorem c4_amended (hostname : String) (records : List ManagedDnsRecord)
    (lines : List Line) (nl : List Line)
    (hW : (records.map (recordToUnbound hostname)).Nodup)
    (hwrite : updateIpsCore hostname records lines = .write nl) :
    ((∀ k ∈ wantedKeysOf hostname records, k ∉ lines) →
      nl = linesAfterRemove hostname records lines ++
        wantedKeysOf hostname records) ∧
    ((∃ k ∈ wantedKeysOf hostname records,
        (presentIdx (ownedPfx hostname) k lines).isSome = true) →
      (∀ j ∈ staleOf hostname records lines,
          anchorOf hostname records lines < j) →
      nl = (linesAfterRemove hostname records lines).take
            (anchorOf hostname records lines) ++
          missingOf hostname records lines ++
          (linesAfterRemove hostname records lines).drop
            (anchorOf hostname records lines) ∧
        ∃ k ∈ wantedKeysOf hostname records,
          presentIdx (ownedPfx hostname) k lines =
              some (anchorOf hostname records lines) ∧
            (linesAfterRemove hostname records
              lines)[anchorOf hostname records lines]? = some k) := by
  have hwk : wantedKeysOf hostname records =
      records.map (recordToUnbound hostname) := by
    unfold wantedKeysOf
    exact goMapKeys_eq_self _ hW
  constructor
  · intro hnone
    have hmissAll : missingOf hostname records lines =
        wantedKeysOf hostname records := by
      unfold missingOf
      apply List.filter_eq_self.mpr
      intro k hk
      rw [(presentIdx_eq_none_iff hostname k lines
        (wantedKeys_owned hostname records k hk)).mpr (hnone k hk)]
      rfl
    have hlen : (missingOf hostname records lines).length =
        records.length := by
      rw [hmissAll, hwk, List.length_map]
    unfold updateIpsCore at hwrite
    by_cases hfast : (missingOf hostname records lines).length = 0 ∧
        (staleOf hostname records lines).length = 0
    · rw [if_pos hfast] at hwrite
      exact absurd hwrite (fun h => UpdateOutcome.noConfusion h)
    · rw [if_neg hfast, if_pos hlen] at hwrite
      rw [← (UpdateOutcome.write.inj hwrite), hmissAll]
  · intro hpres hclean
    obtain ⟨k, hkmem, hka⟩ :
        ∃ k ∈ wantedKeysOf hostname records,
          presentIdx (ownedPfx hostname) k lines =
            some (anchorOf hostname records lines) := by
      unfold anchorOf
      exact foldl_lastSome
        (fun k => presentIdx (ownedPfx hostname) k lines) _ 0 hpres
    obtain ⟨ha_lt, ha_get⟩ :=
      presentIdx_some hostname k lines _ hka
    have hsplitl2 : linesAfterRemove hostname records lines =
        lines.take (anchorOf hostname records lines + 1) ++
          removeIdxFrom (staleOf hostname records lines)
            (lines.drop (anchorOf hostname records lines + 1))
            (0 + (anchorOf hostname records lines + 1)) := by
      unfold linesAfterRemove
      exact removeIdxFrom_split _ lines 0 _ (fun j hj => by
        have := hclean j hj
        omega)
    have hle : anchorOf hostname records lines ≤
        (linesAfterRemove hostname records lines).length := by
      rw [hsplitl2, List.length_append, List.length_take]
      omega
    have hkfalse :
        (presentIdx (ownedPfx hostname) k lines).isNone = false := by
      rw [hka]
      rfl
    have hmlt : (missingOf hostname records lines).length <
        (wantedKeysOf hostname records).length := by
      unfold missingOf
      exact length_filter_lt_of_mem_not _ _ k hkmem hkfalse
    have hmne : (missingOf hostname records lines).length ≠
        records.length := by
      rw [hwk, List.length_map] at hmlt
      omega
    unfold updateIpsCore at hwrite
    by_cases hfast : (missingOf hostname records lines).length = 0 ∧
        (staleOf hostname records lines).length = 0
    · rw [if_pos hfast] at hwrite
      exact absurd hwrite (fun h => UpdateOutcome.noConfusion h)
    · rw [if_neg hfast, if_neg hmne,
        goInsert_eq_some _ _ _ hle] at hwrite
      refine ⟨(UpdateOutcome.write.inj hwrite).symm, k, hkmem, hka, ?_⟩
      rw [hsplitl2]
      rw [List.getElem?_append_left (by
        rw [List.length_take]
        omega)]
      rw [List.getElem?_take_of_lt (by omega)]
      rw [List.getElem?_eq_getElem ha_lt]
      rw [← ha_get]
      rfl

/-- C4, amended, witness: file `["unrelated", lineA, staleLn]`, desired
`[recA, recB]`: the stale line sits *after* the anchor `lineA` (index 1),
so the missing `lineB` is inserted immediately before `lineA`. -/
theorem c4_amended_witness :
    updateIpsCore "h" [recA, recB] ["unrelated".data, lineA, staleLn] =
        .write (["unrelated".data].take 1 ++ [lineB] ++
          ["unrelated".data, lineA].drop 1) ∨
      ("unrelated".data :: lineB :: lineA :: []) =
        (linesAfterRemove "h" [recA, recB]
            ["unrelated".data, lineA, staleLn]).take
            (anchorOf "h" [recA, recB]
              ["unrelated".data, lineA, staleLn]) ++
          missingOf "h" [recA, recB] ["unrelated".data, lineA, staleLn] ++
          (linesAfterRemove "h" [recA, recB]
            ["unrelated".data, lineA, staleLn]).drop
            (anchorOf "h" [recA, recB]
              ["unrelated".data, lineA, staleLn]) := by
  right
  have h := c4_amended "h" [recA, recB] ["unrelated".data, lineA, staleLn]
    ("unrelated".data :: lineB :: lineA :: []) (by decide) (by rfl)
  exact (h.2 ⟨lineA, by decide, by decide⟩ (by decide)).1

/-! ## TCP health checker (`internal/healthcheck/tcp.go`) -/

/-- The error of a failed `net.DialTimeout` call, classified by the only
predicate the checker applies: `errors.Is(err, syscall.ECONNREFUSED)`
holds exactly for `connRefused`; `timeout` and `other` are the non-refused
failure families (i/o timeout, unreachable, etc.). -/
inductive DialErr where
  | connRefused
  | timeout
  | other (code : Nat)
deriving DecidableEq, Repr

/-- `errors.Is(err, syscall.ECONNREFUSED)` over the `err` return of the
dial (`none` models a nil error). -/
def errorsIsConnRefused : Option DialErr → Bool
  | some .connRefused => true
  | _ => false

/-- `healthcheck.TcpChecker`: the configured target (the state is not read
by the health decision which only depends on the dial's outcome). -/
structure TcpChecker where
  host : String
  port : String
  timeout : Nat
deriving DecidableEq, Repr

/-- `TcpChecker.IsHealthy` (`internal/healthcheck/tcp.go`, lines 55-68).
The argument is the `(conn, err)` pair `net.DialTimeout` returned, with
`conn` reduced to presence. The method returns `(true, nil)` when
`err == nil && conn != nil`, `(true, nil)` on a connection-refused error,
and otherwise `(false, err)` — the dial error is passed through, so a
timeout or unreachable host yields an error result, not `(false, nil)`. -/
def TcpChecker.IsHealthy (_c : TcpChecker)
    (dial : Option Unit × Option DialErr) : Bool × Option DialErr :=
  if dial.2 = none ∧ dial.1 ≠ none then (true, none)
  else if errorsIsConnRefused dial.2 then (true, none)
  else (false, dial.2)

/-- C8, counterexample. A dial that fails with a timeout: the claim says
the checker returns the unhealthy result `(false, nil)`; the code returns
`(false, err)` with the timeout error — an error result (the caller
`Eval` then feeds `E`, not `U`, to the state machine). -/
theorem c8_counterexample :
    TcpChecker.IsHealthy ⟨"192.168.1.5", "80", 5⟩
        (none, some .timeout) = (false, some .timeout) ∧
      ((false, some DialErr.timeout) : Bool × Option DialErr) ≠
        (false, none) := by
  constructor
  · rfl
  · decide

/-- C8, amended. The checker returns the healthy result `(true, nil)` when
the connect succeeds or fails with connection refused; every other dial
failure is returned as `(false, err)` with that error (an error result);
the unhealthy result `(false, nil)` is never produced for a failed dial. -/
theorem c8_amended (c : TcpChecker) :
    (c.IsHealthy (some (), none) = (true, none)) ∧
    (c.IsHealthy (none, some .connRefused) = (true, none)) ∧
    (∀ e : DialErr, e ≠ .connRefused →
      c.IsHealthy (none, some e) = (false, some e)) ∧
    (∀ e : DialErr, c.IsHealthy (none, some e) ≠ (false, none)) := by
  refine ⟨rfl, rfl, ?_, ?_⟩
  · intro e he
    rcases e with _ | _ | code
    · exact absurd rfl he
    · rfl
    · rfl
  · intro e
    rcases e with _ | _ | code
    · intro h
      exact Prod.noConfusion h (fun h1 _ => Bool.noConfusion h1)
    · intro h
      exact Prod.noConfusion h (fun _ h2 => Option.noConfusion h2)
    · intro h
      exact Prod.noConfusion h (fun _ h2 => Option.noConfusion h2)

/-- C8, amended, witness at a concrete checker and a timeout failure. -/
theorem c8_amended_witness :
    TcpChecker.IsHealthy ⟨"192.168.1.5", "80", 5⟩ (some (), none) =
        (true, none) ∧
      TcpChecker.IsHealthy ⟨"192.168.1.5", "80", 5⟩
        (none, some (.other 113)) = (false, some (.other 113)) := by
  have h := c8_amended ⟨"192.168.1.5", "80", 5⟩
  exact ⟨h.1, h.2.2.1 (.other 113) (by decide)⟩

end DnsHa
